import Mathlib

/-!
Verification development for the `cargo-flatpak` resolution engine.

The repository contains two generations of the engine: the current
implementation in `src/sources.rs` (the `pub` API used throughout this
development) and an older copy of the same functions in `src/main.rs`
(which still has the driver loop and the process-wide constants).  Both
are embedded below where a claim refers to them.

Modelling conventions:
* Rust `String`/`&str` values are embedded as `List Char` (`Str`).
* `url::Url` is embedded as a structure of its components together with a
  parser for the `scheme://host path ?query #fragment` fragment of the
  grammar that the lock-file URLs inhabit.  Percent-encoding, IDNA,
  port splitting and scheme/host lower-casing performed by the `url`
  crate are not modelled; the inputs in scope are already in that
  normal form.  The WHATWG normalisation of an empty path to "/" is
  modelled.
* Fallible Rust code (`Result`, `unwrap`, `expect`, `assert!`, slicing
  panics) is embedded in `Except Err`, with distinct error constructors
  for the interesting exits.
* The filesystem (manifest loads) is an explicit association list from
  literal path strings to already-parsed TOML values; `glob` over a
  wildcard-free pattern is modelled as an existence lookup, and the
  `pathdiff::diff_paths(p, ".")` call is modelled as the identity on the
  joined relative path (paths are joined purely textually, and the
  filesystem is keyed by the same textual paths).
* `HashMap`/`toml::map::Map` values are embedded as association lists in
  insertion order with overwrite-on-existing-key semantics.
* Unbounded recursion over the dependency graph is embedded with
  explicit fuel; running out of fuel is a distinguished error.
-/

namespace CargoFlatpak

abbrev Str := List Char

/-! Basic string operations (models of the Rust `str` operations used) -/

/-- Model of `str::starts_with` on character lists. -/
def strStartsWith : Str → Str → Bool
  | _, [] => true
  | [], _ :: _ => false
  | c :: s, d :: p => c = d && strStartsWith s p

/-- Model of `str::ends_with` on character lists. -/
def strEndsWith (s pat : Str) : Bool :=
  strStartsWith s.reverse pat.reverse

/-- Structural worker for `replaceAll`; the fuel is the string length,
which is never exhausted before the string is. -/
def replaceAllAux : Nat → Str → Str → Str → Str
  | 0, s, _, _ => s
  | fuel + 1, s, pat, rep =>
    match s with
    | [] => []
    | c :: rest =>
      if pat ≠ [] ∧ strStartsWith (c :: rest) pat then
        rep ++ replaceAllAux fuel ((c :: rest).drop pat.length) pat rep
      else
        c :: replaceAllAux fuel rest pat rep

/-- Model of Rust `str::replace` (global, non-overlapping, left to right). -/
def replaceAll (s pat rep : Str) : Str :=
  replaceAllAux s.length s pat rep

/-- Split a string at the first occurrence of `pat`, returning the parts
before and after it. -/
def splitOnce : Str → Str → Option (Str × Str)
  | [], pat => if strStartsWith [] pat then some ([], []) else none
  | c :: rest, pat =>
    if strStartsWith (c :: rest) pat then
      some ([], (c :: rest).drop pat.length)
    else
      (splitOnce rest pat).map (fun pr => (c :: pr.1, pr.2))

/-- Split at the first occurrence of a character: the part before it, and
(`some`) the part after it when the character occurs. -/
def splitAtFirst (s : Str) (c : Char) : Str × Option Str :=
  let pre := s.takeWhile (fun d => d ≠ c)
  if pre.length = s.length then (s, none)
  else (pre, some (s.drop (pre.length + 1)))

/-- Model of Rust `str::split(sep)` (a list of fields; an empty string
yields one empty field). -/
def splitAll : Str → Char → List Str
  | [], _ => [[]]
  | c :: rest, sep =>
    if c = sep then
      [] :: splitAll rest sep
    else
      match splitAll rest sep with
      | [] => [[c]]
      | f :: fs => (c :: f) :: fs

/-- Model of `str::trim_end_matches(char)`: remove every trailing
occurrence of the character. -/
def trimEndMatchesChar (s : Str) (c : Char) : Str :=
  (s.reverse.dropWhile (fun d => d = c)).reverse

/-- Structural worker for `trimEndMatchesStr`; the fuel is the string
length, which is never exhausted before the trimming stabilises. -/
def trimEndAux : Nat → Str → Str → Str
  | 0, s, _ => s
  | fuel + 1, s, pat =>
    if pat ≠ [] ∧ strEndsWith s pat then
      trimEndAux fuel (s.take (s.length - pat.length)) pat
    else
      s

/-- Model of `str::trim_end_matches(&str)`: repeatedly remove the suffix. -/
def trimEndMatchesStr (s pat : Str) : Str :=
  trimEndAux s.length s pat

/-! Process-wide constants (src/main.rs lines 19-24) -/

def CRATES_IO : Str := "https://static.crates.io/crates".toList

def CARGO_HOME : Str := "cargo".toList

def CARGO_CRATES : Str := "cargo/vendor".toList

def VENDORED_SOURCES : Str := "vendored-sources".toList

def GIT_CACHE : Str := "flatpak-cargo/git".toList

def COMMIT_LEN : Nat := 7

/-! URL model (embedding of the `url::Url` values used by the code) -/

structure Url where
  scheme : Str
  host : Str
  path : Str
  query : Option Str
  fragment : Option Str
deriving DecidableEq, Repr

inductive Err where
  /-- `Url::parse` failure (`url::ParseError`). -/
  | urlParse
  /-- the `.expect("The commit needs to be indicated in the fragment part")` exit. -/
  | missingCommitDisambiguator
  /-- a byte-slicing panic from `&commit[..COMMIT_LEN]`. -/
  | sliceOutOfBounds
  /-- any other panic (`unwrap`, `assert!`, `assert_eq!`, `expect`). -/
  | panicked
  /-- the recursion fuel of the embedding ran out. -/
  | outOfFuel
deriving DecidableEq, Repr

def schemeSep : Str := "://".toList

def isSchemeChar (c : Char) : Bool :=
  ('a' ≤ c ∧ c ≤ 'z') ∨ ('0' ≤ c ∧ c ≤ '9') ∨ c = '+' ∨ c = '-' ∨ c = '.'

def validScheme (sch : Str) : Bool :=
  match sch with
  | [] => false
  | c :: rest => ('a' ≤ c ∧ c ≤ 'z') ∧ (rest.all isSchemeChar)

/-- Not a host/path separator character. -/
def notSep (c : Char) : Bool :=
  ¬(c = '/' ∨ c = '?' ∨ c = '#')

/-- Embedding of `Url::parse` on the URL fragment the lock file inhabits:
`scheme://host[path][?query][#fragment]`.  The empty path of a parsed URL
is normalised to "/" as the `url` crate does. -/
def Url.parse (s : Str) : Except Err Url :=
  match splitOnce s schemeSep with
  | none => .error .urlParse
  | some (sch, rest) =>
    if validScheme sch then
      if rest.takeWhile notSep = [] then .error .urlParse
      else
        match splitAtFirst (rest.dropWhile notSep) '#' with
        | (beforeFrag, frag) =>
          match splitAtFirst beforeFrag '?' with
          | (p, query) =>
            .ok ⟨sch, rest.takeWhile notSep,
              if p = [] then ['/'] else p, query, frag⟩
    else .error .urlParse

/-- Embedding of `Url::to_string`. -/
def Url.toStr (u : Url) : Str :=
  u.scheme ++ schemeSep ++ u.host ++ u.path ++
    (match u.query with | some q => '?' :: q | none => []) ++
    (match u.fragment with | some f => '#' :: f | none => [])

/-- Query string as key/value pairs (model of `Url::query_pairs`;
percent-decoding is not modelled). -/
def queryPairs (q : Str) : List (Str × Str) :=
  (splitAll q '&').map (fun kv =>
    let (k, v) := splitAtFirst kv '='
    (k, v.getD []))

/-- `HashMap`-collect lookup: the last pair with the key wins. -/
def lookupLast (l : List (Str × Str)) (k : Str) : Option Str :=
  match l with
  | [] => none
  | (k', v) :: t =>
    match lookupLast t k with
    | some r => some r
    | none => if k' = k then some v else none

def gitHttpsMarker : Str := "git+https://".toList

def httpsMarker : Str := "https://".toList

def dotGit : Str := ".git".toList

/-- Embedding of `parse_url` (src/sources.rs lines 72-99): the Cargo
canonical-URL computation of the current implementation, which also
collects the vendored-sources config fragment entries. -/
def parse_url (s : Str) : Except Err (Url × List (Str × Str)) :=
  let s1 := replaceAll s gitHttpsMarker httpsMarker
  match Url.parse s1 with
  | .error e => .error e
  | .ok u =>
    let captures : List (Str × Str) :=
      match u.query with
      | none => []
      | some q =>
        let pairs := queryPairs q
        match lookupLast pairs "rev".toList with
        | some rev => [("rev".toList, rev)]
        | none =>
          match lookupLast pairs "tag".toList with
          | some tag => [("tag".toList, tag)]
          | none =>
            match lookupLast pairs "branch".toList with
            | some branch => [("branch".toList, branch)]
            | none => []
    let u1 : Url := { u with query := none, fragment := none }
    let path := trimEndMatchesStr (trimEndMatchesChar u1.path '/') dotGit
    let u2 : Url := { u1 with path := path }
    .ok (u2, captures ++ [("git".toList, u2.toStr),
                          ("replace-with".toList, VENDORED_SOURCES)])

/-- ASCII lower-casing of one character (model of the lower-casing used by
the host-specific GitHub rule). -/
def lowerChar (c : Char) : Char :=
  if 'A' ≤ c ∧ c ≤ 'Z' then Char.ofNat (c.toNat + 32) else c

/-- Embedding of `canonical_url` (src/main.rs lines 46-71): the older copy
of the canonicalizer, which still carries the GitHub host-specific rule. -/
def canonical_url (s : Str) : Except Err Url :=
  let s1 := replaceAll s gitHttpsMarker httpsMarker
  match Url.parse s1 with
  | .error e => .error e
  | .ok u =>
    let u1 : Url := { u with query := none, fragment := none }
    let u2 : Url := { u1 with path := trimEndMatchesChar u1.path '/' }
    let u3 : Url :=
      if u2.host = "github.com".toList then
        { u2 with scheme := "https".toList, path := u2.path.map lowerChar }
      else u2
    let u4 : Url :=
      if strEndsWith u3.path dotGit then
        { u3 with path := trimEndMatchesStr u3.path dotGit }
      else u3
    .ok u4

/-! Byte slicing (model of `&commit[..COMMIT_LEN]`) -/

/-- Model of the Rust byte-slice `&s[..n]`: `some` prefix when `n` bytes is
a character boundary within the string, `none` (a panic) otherwise. -/
def sliceToByte : Str → Nat → Option Str
  | _, 0 => some []
  | [], _ + 1 => none
  | c :: rest, n + 1 =>
    if c.utf8Size ≤ n + 1 then
      (sliceToByte rest (n + 1 - c.utf8Size)).map (fun t => c :: t)
    else none

/-- UTF-8 byte length of a string. -/
def utf8Len (s : Str) : Nat :=
  (s.map Char.utf8Size).sum

/-- Embedding of `git_repo_name` (src/sources.rs lines 101-106). -/
def git_repo_name (git_url commit : Str) : Except Err Str :=
  match parse_url git_url with
  | .error _ => .error .urlParse
  | .ok (canonical, _) =>
    let name := ((splitAll canonical.path '/').getLast?).getD []
    match sliceToByte commit COMMIT_LEN with
    | none => .error .sliceOutOfBounds
    | some c7 => .ok (name ++ "-".toList ++ c7)

/-! TOML value model

Embeds the subset of `toml::Value` the engine manipulates: strings,
booleans, tables and arrays.  Tables are association lists in insertion
order with unique keys (as produced by the TOML parser); `insert` on an
existing key replaces the value in place. -/

inductive Toml where
  | str (s : Str)
  | boolean (b : Bool)
  | table (entries : List (Str × Toml))
  | arr (elems : List Toml)
deriving Repr

/-- Generic association-list membership test. -/
def containsKey {α : Type} (m : List (Str × α)) (k : Str) : Bool :=
  m.any (fun kv => kv.1 = k)

/-- Generic association-list lookup (first match). -/
def lookupAssoc {α : Type} (m : List (Str × α)) (k : Str) : Option α :=
  (m.find? (fun kv => kv.1 = k)).map (fun kv => kv.2)

/-- Generic association-list insert: replace the value in place when the
key exists, append otherwise (model of map `insert`). -/
def insertAssoc {α : Type} (m : List (Str × α)) (k : Str) (v : α) : List (Str × α) :=
  if containsKey m k then
    m.map (fun kv => if kv.1 = k then (k, v) else kv)
  else
    m ++ [(k, v)]

/-- Model of `toml::Value::get(key)` (string-keyed; `None` on non-tables). -/
def Toml.get? (t : Toml) (k : Str) : Option Toml :=
  match t with
  | .table es => lookupAssoc es k
  | _ => none

/-- Model of `toml::Value::as_table`. -/
def Toml.asTable : Toml → Option (List (Str × Toml))
  | .table es => some es
  | _ => none

/-- Model of `toml::Value::as_str`. -/
def Toml.asStr : Toml → Option Str
  | .str s => some s
  | _ => none

/-- Model of `toml::Value::as_array`. -/
def Toml.asArr : Toml → Option (List Toml)
  | .arr xs => some xs
  | _ => none

mutual

/-- Model of `toml::to_string` (only the inline shape matters to the
claims, never the concrete rendering). -/
def Toml.serialize : Toml → Str
  | .str s => '"' :: s ++ ['"']
  | .boolean b => if b then "true".toList else "false".toList
  | .table es => '\x7b' :: serializeEntries es ++ ['\x7d']
  | .arr xs => '[' :: serializeElems xs ++ [']']

def serializeEntries : List (Str × Toml) → Str
  | [] => []
  | (k, v) :: rest => k ++ " = ".toList ++ Toml.serialize v ++
      (match rest with | [] => [] | _ => ", ".toList) ++ serializeEntries rest

def serializeElems : List Toml → Str
  | [] => []
  | v :: rest => Toml.serialize v ++
      (match rest with | [] => [] | _ => ", ".toList) ++ serializeElems rest

end

/-! Resolved packages and workspace normalization
(src/sources.rs lines 108-143) -/

structure GitPackage where
  path : Str
  package : Toml
  workspace : Option Toml
deriving Repr

def workspaceKey : Str := "workspace".toList

/-- Embedding of `GitPackage::normalized` (src/sources.rs lines 115-143).
`none` models the `as_table_mut().unwrap()` panic when a workspace is
attached but the stored manifest value is not a table. -/
def GitPackage.normalized (gp : GitPackage) : Option Toml :=
  match gp.workspace with
  | none => some gp.package
  | some workspace =>
    match gp.package with
    | .table sections =>
      some (.table (sections.map (fun sk_sec =>
        match sk_sec with
        | (section_key, Toml.table section_map) =>
          let keys_to_replace := section_map.filterMap (fun kv =>
            match kv.2 with
            | .table value_map =>
              if containsKey value_map workspaceKey then some kv.1 else none
            | _ => none)
          match (workspace.get? section_key).bind Toml.asTable with
          | some workspace_section =>
            (section_key, Toml.table (keys_to_replace.foldl (fun sm key =>
              match lookupAssoc workspace_section key with
              | some workspace_value =>
                sm.map (fun kv => if kv.1 = key then (key, workspace_value) else kv)
              | none => sm) section_map))
          | none => (section_key, Toml.table section_map)
        | (section_key, sec) => (section_key, sec))))
    | _ => none

/-- A package map (the `GitPackagesType` HashMap, embedded as an
association list in insertion order; only keyed lookups are performed). -/
abbrev Pkgs := List (Str × GitPackage)

/-- The filesystem of the checkout: literal manifest path to parsed TOML. -/
abbrev FS := List (Str × Toml)

def lookupFS (fs : FS) (p : Str) : Option Toml := lookupAssoc fs p

/-! Workspace manifest walker
(src/sources.rs lines 147-273: `get_cargo_toml_packages` and its inner
`get_dep_packages`; the `for` loops over dependency tables, target tables
and workspace members are embedded as the explicit list recursions
`processDeps`, `processTargets` and `processMembers`). -/

def dependenciesKey : Str := "dependencies".toList

def packageKey : Str := "package".toList

def nameKey : Str := "name".toList

def pathKey : Str := "path".toList

def targetKey : Str := "target".toList

def membersKey : Str := "members".toList

def cargoTomlSuffix : Str := "/Cargo.toml".toList

/-- The dependency name used for memoization: an explicit `package =`
override takes precedence over the table key (src/sources.rs lines
166-169). -/
def resolvedDepName (dep_key : Str) (dep : Toml) : Str :=
  match (dep.get? packageKey).bind Toml.asStr with
  | some p => p
  | none => dep_key

/-- The body of the `for (dep_name, dep) in dependencies` loop of
`get_dep_packages` (src/sources.rs lines 165-203), parameterized by the
recursive call (`recur dep_toml dep_dir packages`) so that the fuelled
recursion below stays structural. -/
def processDep (recur : Toml → Str → Pkgs → Except Err Pkgs)
    (dep_key : Str) (dep : Toml) (toml_dir : Str)
    (workspace : Option Toml) (packages : Pkgs) (fs : FS) : Except Err Pkgs :=
  let dep_name := resolvedDepName dep_key dep
  match dep.get? pathKey with
  | none => .ok packages
  | some pathv =>
    if containsKey packages dep_name then .ok packages
    else
      match pathv.asStr with
      | none => .error .panicked
      | some p =>
        let dep_dir := toml_dir ++ "/".toList ++ p
        match lookupFS fs (dep_dir ++ cargoTomlSuffix) with
        | none => .error .panicked
        | some dep_toml =>
          if ((dep_toml.get? packageKey).bind (fun pk => pk.get? nameKey)).bind Toml.asStr
              = some dep_name then
            recur dep_toml dep_dir packages >>= fun packages1 =>
            .ok (insertAssoc packages1 dep_name ⟨dep_dir, dep, workspace⟩)
          else .error .panicked

/-- Embedding of the inner `get_dep_packages` (src/sources.rs lines
156-212): the dependency-table loop, then the per-target loop, with the
recursion bounded by explicit fuel. -/
def get_dep_packages : Nat → Toml → Str → Option Toml → Pkgs → FS →
    Except Err Pkgs
  | 0, _, _, _, _, _ => .error .outOfFuel
  | f + 1, entry, toml_dir, workspace, packages, fs =>
    (match (entry.get? dependenciesKey).bind Toml.asTable with
     | some deps =>
       deps.foldlM (fun pkgs kv =>
         processDep (fun t d pk => get_dep_packages f t d workspace pk fs)
           kv.1 kv.2 toml_dir workspace pkgs fs) packages
     | none => .ok packages) >>= fun packages1 =>
    match (entry.get? targetKey).bind Toml.asTable with
    | some targets =>
      targets.foldlM (fun pkgs kv =>
        get_dep_packages f kv.2 toml_dir workspace pkgs fs) packages1
    | none => .ok packages1

def processMembers (fuel : Nat) (members : List Str) (root_dir : Str)
    (workspace : Toml) (packages : Pkgs) (fs : FS) : Except Err Pkgs :=
  match members with
  | [] => .ok packages
  | m :: rest =>
    let subpkg := root_dir ++ "/".toList ++ m
    (match lookupFS fs (subpkg ++ cargoTomlSuffix) with
     | none => .ok packages
     | some pkg_toml =>
       get_dep_packages fuel pkg_toml subpkg (some workspace) packages fs >>= fun packages1 =>
       match ((pkg_toml.get? packageKey).bind (fun p => p.get? nameKey)).bind Toml.asStr with
       | none => .error .panicked
       | some nm => .ok (insertAssoc packages1 nm ⟨subpkg, pkg_toml, some workspace⟩))
    >>= fun packages2 =>
    processMembers fuel rest root_dir workspace packages2 fs

/-- Embedding of `get_cargo_toml_packages` (src/sources.rs lines 147-273). -/
def get_cargo_toml_packages (fuel : Nat) (root_toml : Toml) (root_dir : Str)
    (fs : FS) : Except Err Pkgs :=
  if (root_toml.get? packageKey).isNone ∧ (root_toml.get? workspaceKey).isNone then
    .error .panicked
  else
    (match root_toml.get? packageKey with
     | some package =>
       get_dep_packages fuel root_toml root_dir none [] fs >>= fun packages =>
       match (package.get? nameKey).bind Toml.asStr with
       | none => .error .panicked
       | some nm => .ok (insertAssoc packages nm ⟨root_dir, root_toml, none⟩)
     | none => .ok []) >>= fun packages =>
    match root_toml.get? workspaceKey with
    | none => .ok packages
    | some workspace =>
      match (workspace.get? membersKey).bind Toml.asArr with
      | none => .ok packages
      | some members =>
        processMembers fuel (members.filterMap Toml.asStr) root_dir workspace packages fs

/-! Source descriptors and lock entries (src/sources.rs lines 10-67) -/

structure Archive where
  archive_type : Str
  url : Str
  sha256 : Str
  dest : Str
deriving DecidableEq, Repr

structure Inline where
  contents : Str
  dest : Str
  dest_filename : Str
deriving DecidableEq, Repr

structure Git where
  url : Str
  commit : Str
  dest : Str
deriving DecidableEq, Repr

structure Shell where
  commands : List Str
deriving DecidableEq, Repr

inductive Source where
  | archive (a : Archive)
  | inline (i : Inline)
  | git (g : Git)
  | shell (s : Shell)
deriving DecidableEq, Repr

structure Package where
  name : Str
  version : Str
  source : Option Str
  checksum : Option Str
  dependencies : Option (List Str)
deriving DecidableEq, Repr

structure LockFile where
  version : Nat
  package : List Package
deriving DecidableEq, Repr

/-- The vendor-config fragment type (`toml::map::Map<String, Value>`). -/
abbrev Cfg := List (Str × Toml)

/-! Source resolver (src/sources.rs lines 279-377) -/

def gitPlusMarker : Str := "git+".toList

/-- The fixed contents of the git checksum marker file
`\x7b"package": null, "files": \x7b\x7d\x7d`. -/
def emptyChecksumJson : Str :=
  "\x7b\"package\": null, \"files\": \x7b\x7d\x7d".toList

/-- The registry checksum marker contents
`\x7b"package": "<hash>", "files": \x7b\x7d\x7d`. -/
def checksumJson (checksum : Str) : Str :=
  "\x7b\"package\": \"".toList ++ checksum ++ "\", \"files\": \x7b\x7d\x7d".toList

/-- The shell copy command
`cp -r --reflink=auto "<pkg_repo_dir>" "<CARGO_CRATES>/<name>"`. -/
def cpCommand (pkg_repo_dir name : Str) : Str :=
  "cp -r --reflink=auto \"".toList ++ pkg_repo_dir ++ "\" \"".toList ++
    CARGO_CRATES ++ "/".toList ++ name ++ "\"".toList

/-- Embedding of `get_git_package_sources` (src/sources.rs lines 279-334).
The `manifest` argument is the path of the checkout's root manifest; the
filesystem and the recursion fuel are explicit. -/
def get_git_package_sources (pkg : Package) (manifest : Str) (fs : FS)
    (fuel : Nat) : Except Err (List Source × Cfg) :=
  let name := pkg.name
  match pkg.source with
  | none => .error .panicked
  | some source =>
    match Url.parse source with
    | .error _ => .error .panicked
    | .ok parsed =>
      match parsed.fragment with
      | none => .error .missingCommitDisambiguator
      | some commit =>
        match parse_url source with
        | .error _ => .error .panicked
        | .ok (canonical, vendored) =>
          let repo_url := canonical.toStr
          match lookupFS fs manifest with
          | none => .error .panicked
          | some toml_content =>
            match get_cargo_toml_packages fuel toml_content
                (trimEndMatchesStr manifest cargoTomlSuffix) fs with
            | .error e => .error e
            | .ok packages =>
              match sliceToByte commit COMMIT_LEN with
              | none => .error .sliceOutOfBounds
              | some c7 =>
                let dest := name ++ "-".toList ++ c7
                match lookupAssoc packages name with
                | none => .error .panicked
                | some git_pkg =>
                  match git_repo_name repo_url commit with
                  | .error _ => .error .panicked
                  | .ok grn =>
                    let pkg_repo_dir :=
                      GIT_CACHE ++ "/".toList ++ grn ++ "/".toList ++ git_pkg.path
                    let shell := Source.shell ⟨[cpCommand pkg_repo_dir name]⟩
                    match git_pkg.normalized with
                    | none => .error .panicked
                    | some ntoml =>
                      let cargo_toml := Source.inline
                        ⟨ntoml.serialize, CARGO_CRATES ++ "/".toList ++ name,
                          "Cargo.toml".toList⟩
                      let cargo_checksum := Source.inline
                        ⟨emptyChecksumJson, CARGO_CRATES ++ "/".toList ++ name,
                          ".cargo-checksum.json".toList⟩
                      let git := Source.git ⟨repo_url, commit, dest⟩
                      let c : Cfg := insertAssoc []
                        canonical.toStr
                        (Toml.table (vendored.map (fun kv => (kv.1, Toml.str kv.2))))
                      .ok ([git, shell, cargo_toml, cargo_checksum], c)

/-- Embedding of `get_package_sources` (src/sources.rs lines 336-377):
classifies a lock entry and produces its descriptors and config fragment;
`.ok none` is the "skip this entry" outcome. -/
def get_package_sources (pkg : Package) (manifest : Str) (fs : FS)
    (fuel : Nat) : Except Err (Option (List Source × Cfg)) :=
  let name := pkg.name
  let version := pkg.version
  match pkg.source with
  | some source =>
    if strStartsWith source gitPlusMarker then
      match get_git_package_sources pkg manifest fs fuel with
      | .error e => .error e
      | .ok (srcs, c) => .ok (some (srcs, c))
    else
      match pkg.checksum with
      | some checksum =>
        let archive := Source.archive
          ⟨"tar-gzip".toList,
            CRATES_IO ++ "/".toList ++ name ++ "/".toList ++ name ++ "-".toList ++
              version ++ ".crate".toList,
            checksum,
            CARGO_CRATES ++ "/".toList ++ name ++ "-".toList ++ version⟩
        let inl := Source.inline
          ⟨checksumJson checksum,
            CARGO_CRATES ++ "/".toList ++ name ++ "-".toList ++ version,
            ".cargo-checksum.json".toList⟩
        let c : Cfg := insertAssoc [] "crates-io".toList
          (Toml.table (insertAssoc [] "replace-with".toList (Toml.str VENDORED_SOURCES)))
        .ok (some ([archive, inl], c))
      | none => .ok none
  | none => .ok none

/-! Driver loop and assembler (src/main.rs lines 472-518) -/

/-- The initial vendored-sources config map built by `main`. -/
def initCfg : Cfg :=
  insertAssoc [] VENDORED_SOURCES
    (Toml.table (insertAssoc [] "directory".toList (Toml.str CARGO_CRATES)))

/-- The per-entry loop of `main` (src/main.rs lines 487-499): append each
entry's descriptors and merge its config fragment by key. -/
def collectSources (pkgs : List Package) (manifest : Str) (fs : FS) (fuel : Nat)
    (acc : List Source) (cfg : Cfg) : Except Err (List Source × Cfg) :=
  match pkgs with
  | [] => .ok (acc, cfg)
  | p :: rest =>
    match get_package_sources p manifest fs fuel with
    | .error e => .error e
    | .ok none => collectSources rest manifest fs fuel acc cfg
    | .ok (some (srcs, c)) =>
      collectSources rest manifest fs fuel (acc ++ srcs)
        (c.foldl (fun m kv => insertAssoc m kv.1 kv.2) cfg)

/-- A full run up to (but excluding) the final synthesized config
descriptor: the resolver-emitted descriptors and the merged config map. -/
def mainRun (lock : LockFile) (manifest : Str) (fs : FS) (fuel : Nat) :
    Except Err (List Source × Cfg) :=
  collectSources lock.package manifest fs fuel [] initCfg

/-- The full assembled descriptor list: the per-entry descriptors followed
by the single trailing Inline descriptor carrying the serialized merged
config (src/main.rs lines 501-517). -/
def mainSources (lock : LockFile) (manifest : Str) (fs : FS) (fuel : Nat) :
    Except Err (List Source) :=
  match mainRun lock manifest fs fuel with
  | .error e => .error e
  | .ok (srcs, cfg) =>
    .ok (srcs ++ [Source.inline
      ⟨(Toml.table (insertAssoc [] "source".toList (Toml.table cfg))).serialize,
        CARGO_HOME, "config".toList⟩])

/-! Named values used by the claim statements, witnesses and
counterexamples -/

/-- The registry-redirect key contributed by every registry entry. -/
def cratesIoKey : Str := "crates-io".toList

/-- The registry-redirect value (`replace-with = "vendored-sources"`). -/
def rwVal : Toml :=
  Toml.table [("replace-with".toList, Toml.str VENDORED_SOURCES)]

/-! Concrete inputs reused by witnesses and counterexamples -/

/-- A one-package checkout manifest `[package] name = "foo"`. -/
def fooManifestToml : Toml :=
  Toml.table [(packageKey, Toml.table [(nameKey, Toml.str "foo".toList)])]

/-- A checkout filesystem holding only that manifest. -/
def fooFS : FS := [("repo/Cargo.toml".toList, fooManifestToml)]

/-- A git-sourced lock entry with a well-formed 10-byte ASCII commit. -/
def gitPkgFoo : Package :=
  ⟨"foo".toList, "1.0.0".toList,
    some "git+https://example.com/foo#abcdef0123".toList, none, none⟩

/-- The same entry with a 3-byte commit fragment. -/
def gitPkgFooShort : Package :=
  ⟨"foo".toList, "1.0.0".toList,
    some "git+https://example.com/foo#abc".toList, none, none⟩

/-- Whether the list of descriptors starts with a GitCheckout. -/
def headIsGit (l : List Source) : Bool :=
  match l with
  | Source.git _ :: _ => true
  | _ => false

/-- A registry entry: present non-git source and present checksum. -/
def IsRegistryEntry (p : Package) : Prop :=
  (∃ s, p.source = some s ∧ strStartsWith s gitPlusMarker = false) ∧
    (∃ h, p.checksum = some h)

/-- A value is an "inherit from workspace" marker: a table containing the
workspace key. -/
def isMarkerValue : Toml → Bool
  | .table vm => containsKey vm workspaceKey
  | _ => false

/-- Whether any sub-table of any top-level table of a manifest still
contains the workspace-inheritance key. -/
def hasWorkspaceMarker (t : Toml) : Bool :=
  match t with
  | .table secs =>
    secs.any (fun sk =>
      match sk.2 with
      | .table sm => sm.any (fun kv => isMarkerValue kv.2)
      | _ => false)
  | _ => false

/-- The C7 witness package: one marker whose workspace value exists. -/
def c7Gp : GitPackage :=
  ⟨[],
    Toml.table [(dependenciesKey,
      Toml.table [("foo".toList, Toml.table [(workspaceKey, Toml.boolean true)])])],
    some (Toml.table [(dependenciesKey,
      Toml.table [("foo".toList, Toml.str "1.0".toList)])])⟩

/-- The workspace-table value shared by the C8 scenarios. -/
def wsTableMembers (ms : List Str) : Toml :=
  Toml.table [(membersKey, Toml.arr (ms.map Toml.str))]

/-- A member manifest named `nm` with one path dependency on `../c`. -/
def memberToml (nm : Str) : Toml :=
  Toml.table [(packageKey, Toml.table [(nameKey, Toml.str nm)]),
    (dependenciesKey,
      Toml.table [("c".toList, Toml.table [(pathKey, Toml.str "../c".toList)])])]

/-- The shared third package's manifest. -/
def cToml : Toml :=
  Toml.table [(packageKey, Toml.table [(nameKey, Toml.str "c".toList)])]

/-- The checkout filesystem for the shared-dependency scenario. -/
def sharedFS : FS :=
  [("ws/m1/Cargo.toml".toList, memberToml "m1".toList),
   ("ws/m2/Cargo.toml".toList, memberToml "m2".toList),
   ("ws/m1/../c/Cargo.toml".toList, cToml),
   ("ws/m2/../c/Cargo.toml".toList, cToml)]

/-- A workspace whose members are `ms`, as a root manifest. -/
def wsRoot (ms : List Str) : Toml :=
  Toml.table [(workspaceKey, wsTableMembers ms)]

/-- The filesystem for the C8 counterexample: the shared package is also a
workspace member. -/
def overwriteFS : FS :=
  [("ws/m1/Cargo.toml".toList, memberToml "m1".toList),
   ("ws/m1/../c/Cargo.toml".toList, cToml),
   ("ws/c/Cargo.toml".toList, cToml)]

/-! Supporting lemmas -/

theorem strStartsWith_length_le {s pat : Str} (h : strStartsWith s pat = true) :
    pat.length ≤ s.length := by
  induction pat generalizing s with
  | nil => simp
  | cons d p ih =>
    cases s with
    | nil => simp [strStartsWith] at h
    | cons c s =>
      simp only [strStartsWith, Bool.and_eq_true, decide_eq_true_eq] at h
      simpa using Nat.succ_le_succ (ih h.2)

theorem strEndsWith_length_le {s pat : Str} (h : strEndsWith s pat = true) :
    pat.length ≤ s.length := by
  have := @strStartsWith_length_le s.reverse pat.reverse h
  simpa using this

theorem sliceToByte_none_of_short (s : Str) (n : Nat) (h : utf8Len s < n) :
    sliceToByte s n = none := by
  induction s generalizing n with
  | nil =>
    cases n with
    | zero => simp [utf8Len] at h
    | succ m => simp [sliceToByte]
  | cons c rest ih =>
    cases n with
    | zero => simp [utf8Len] at h
    | succ m =>
      simp only [sliceToByte]
      split
      · rename_i hle
        have hr : utf8Len rest < m + 1 - c.utf8Size := by
          simp only [utf8Len, List.map_cons, List.sum_cons] at h ⊢
          omega
        rw [ih _ hr]
        rfl
      · rfl

theorem utf8Size_eq_one_of_ascii (c : Char) (h : c.toNat < 128) :
    c.utf8Size = 1 := by
  have hv : c.val ≤ 0x7F := by
    rw [UInt32.le_def]
    change c.val.toNat ≤ 127
    exact Nat.le_of_lt_succ h
  simp [Char.utf8Size, hv]

theorem sliceToByte_ascii (s : Str) (n : Nat)
    (hascii : ∀ c ∈ s, c.toNat < 128) (hlen : n ≤ s.length) :
    sliceToByte s n = some (s.take n) := by
  induction s generalizing n with
  | nil =>
    cases n with
    | zero => simp [sliceToByte]
    | succ m => simp at hlen
  | cons c rest ih =>
    cases n with
    | zero => simp [sliceToByte]
    | succ m =>
      have hc : c.utf8Size = 1 :=
        utf8Size_eq_one_of_ascii c (hascii c (List.mem_cons_self c rest))
      simp only [sliceToByte, hc]
      have hle : (1 : Nat) ≤ m + 1 := Nat.succ_le_succ (Nat.zero_le m)
      rw [if_pos hle]
      have hrest : sliceToByte rest m = some (rest.take m) := by
        apply ih
        · intro d hd
          exact hascii d (List.mem_cons_of_mem c hd)
        · simpa using Nat.le_of_succ_le_succ hlen
      simp [hrest]

/-- Shared helper: the registry branch of `get_package_sources` computed
explicitly. -/
theorem registry_sources_eq
    (n v h s : Str) (deps : Option (List Str)) (manifest : Str) (fs : FS)
    (fuel : Nat) (hs : strStartsWith s gitPlusMarker = false) :
    get_package_sources ⟨n, v, some s, some h, deps⟩ manifest fs fuel =
      .ok (some
        ([Source.archive ⟨"tar-gzip".toList,
            CRATES_IO ++ "/".toList ++ n ++ "/".toList ++ n ++ "-".toList ++
              v ++ ".crate".toList,
            h,
            CARGO_CRATES ++ "/".toList ++ n ++ "-".toList ++ v⟩,
          Source.inline ⟨checksumJson h,
            CARGO_CRATES ++ "/".toList ++ n ++ "-".toList ++ v,
            ".cargo-checksum.json".toList⟩],
         [(cratesIoKey, rwVal)])) := by
  simp [get_package_sources, hs, insertAssoc, containsKey, cratesIoKey, rwVal]

/-! Claim theorems -/

/-- Claim C5: for every registry-sourced lock entry with name `n`, version `v`
and checksum `h`, the resolver emits exactly an Archive descriptor with
url `{CRATES_IO}/n/n-v.crate`, sha256 `h` and dest `{CARGO_CRATES}/n-v`,
plus an Inline descriptor named `.cargo-checksum.json` whose contents
embed `h` in the fixed checksum structure with an empty files map
(together with the crates-io redirect fragment). -/
theorem registry_entry_descriptor_shape
    (n v h s : Str) (deps : Option (List Str)) (manifest : Str) (fs : FS)
    (fuel : Nat) (hs : strStartsWith s gitPlusMarker = false) :
    get_package_sources ⟨n, v, some s, some h, deps⟩ manifest fs fuel =
      .ok (some
        ([Source.archive ⟨"tar-gzip".toList,
            CRATES_IO ++ "/".toList ++ n ++ "/".toList ++ n ++ "-".toList ++
              v ++ ".crate".toList,
            h,
            CARGO_CRATES ++ "/".toList ++ n ++ "-".toList ++ v⟩,
          Source.inline ⟨checksumJson h,
            CARGO_CRATES ++ "/".toList ++ n ++ "-".toList ++ v,
            ".cargo-checksum.json".toList⟩],
         [("crates-io".toList,
           Toml.table [("replace-with".toList, Toml.str VENDORED_SOURCES)])])) :=
  registry_sources_eq n v h s deps manifest fs fuel hs

/-- Witness for C5 at the spec's own example entry. -/
theorem registry_entry_descriptor_shape_witness :
    get_package_sources
      ⟨"serde".toList, "1.0.0".toList,
        some "registry+https://github.com/rust-lang/crates.io-index".toList,
        some "abcd1234".toList, none⟩ [] [] 0 =
      .ok (some
        ([Source.archive ⟨"tar-gzip".toList,
            CRATES_IO ++ "/".toList ++ "serde".toList ++ "/".toList ++
              "serde".toList ++ "-".toList ++ "1.0.0".toList ++ ".crate".toList,
            "abcd1234".toList,
            CARGO_CRATES ++ "/".toList ++ "serde".toList ++ "-".toList ++
              "1.0.0".toList⟩,
          Source.inline ⟨checksumJson "abcd1234".toList,
            CARGO_CRATES ++ "/".toList ++ "serde".toList ++ "-".toList ++
              "1.0.0".toList,
            ".cargo-checksum.json".toList⟩],
         [("crates-io".toList,
           Toml.table [("replace-with".toList, Toml.str VENDORED_SOURCES)])])) :=
  registry_entry_descriptor_shape "serde".toList "1.0.0".toList
    "abcd1234".toList
    "registry+https://github.com/rust-lang/crates.io-index".toList
    none [] [] 0 (by decide)

/-- Claim C9: a git-sourced lock entry whose raw (pre-canonicalization) source
URL parses without a fragment fails with the missing-commit-disambiguator
error and produces no descriptors. -/
theorem git_entry_without_fragment_fails
    (pkg : Package) (manifest : Str) (fs : FS) (fuel : Nat) (s : Str) (u : Url)
    (hsrc : pkg.source = some s) (hparse : Url.parse s = .ok u)
    (hfrag : u.fragment = none) :
    get_git_package_sources pkg manifest fs fuel =
      .error .missingCommitDisambiguator := by
  simp [get_git_package_sources, hsrc, hparse, hfrag]

/-- Witness for C9: a concrete git source with no `#commit` fragment. -/
theorem git_entry_without_fragment_fails_witness :
    get_git_package_sources
      ⟨"foo".toList, "1.0.0".toList, some "git+https://example.com/foo".toList,
        none, none⟩ [] [] 3 =
      .error .missingCommitDisambiguator :=
  git_entry_without_fragment_fails _ [] [] 3
    "git+https://example.com/foo".toList
    ⟨"git+https".toList, "example.com".toList, "/foo".toList, none, none⟩
    rfl rfl rfl

/-- Claim C4 (amended): the resolver returns nothing exactly when the lock entry
has no source field, or when the source is present, is not a git source
and the checksum is absent; no MissingChecksum error exists — the
no-checksum registry case is silently skipped. -/
theorem get_package_sources_none_iff
    (pkg : Package) (manifest : Str) (fs : FS) (fuel : Nat) :
    get_package_sources pkg manifest fs fuel = .ok none ↔
      (pkg.source = none ∨
        ∃ s, pkg.source = some s ∧ strStartsWith s gitPlusMarker = false ∧
          pkg.checksum = none) := by
  obtain ⟨n, v, src, chk, deps⟩ := pkg
  cases src with
  | none => simp [get_package_sources]
  | some s =>
    by_cases hg : strStartsWith s gitPlusMarker
    · simp only [get_package_sources, hg, if_true]
      constructor
      · intro h
        split at h
        · exact Except.noConfusion h
        · rename_i srcs c heq
          simp at h
      · rintro (h | ⟨s', hs', hgit, _⟩)
        · exact Option.noConfusion h
        · rw [show s' = s from (Option.some.injEq _ _).mp hs'.symm] at hgit
          rw [hg] at hgit
          exact Bool.noConfusion hgit
    · cases chk with
      | some c =>
        simp only [get_package_sources, hg, if_false, Bool.false_eq_true]
        constructor
        · intro h
          simp at h
        · rintro (h | ⟨s', _, _, hc⟩)
          · exact Option.noConfusion h
          · exact Option.noConfusion hc
      | none =>
        simp only [get_package_sources, hg, if_false, Bool.false_eq_true]
        constructor
        · intro _
          right
          exact ⟨s, rfl, Bool.eq_false_iff.mpr hg, by trivial⟩
        · intro _
          trivial

/-- Witness for C4: a sourced entry without checksum is skipped. -/
theorem get_package_sources_none_iff_witness :
    get_package_sources
      ⟨"x".toList, "2".toList,
        some "registry+https://github.com/rust-lang/crates.io-index".toList,
        none, none⟩ [] [] 0 = .ok none :=
  (get_package_sources_none_iff _ [] [] 0).mpr
    (Or.inr ⟨"registry+https://github.com/rust-lang/crates.io-index".toList,
      rfl, by decide, rfl⟩)

/-- Claim C4 counterexample: the claim's `MissingChecksum` failure does not
happen — a present, non-git source without checksum yields the same
"nothing" outcome as a missing source, not an error. -/
theorem missing_checksum_is_silently_skipped :
    get_package_sources
      ⟨"libc".toList, "0.2.0".toList,
        some "registry+https://github.com/rust-lang/crates.io-index".toList,
        none, none⟩ [] [] 0 = .ok none := by
  rfl

/-- Claim C10: the commit disambiguator is byte-sliced to its first
`COMMIT_LEN = 7` bytes: a fragment shorter than 7 bytes makes the slice
(and hence resolution) panic; a fragment of at least 7 ASCII characters
makes the slice total; and on a concrete git entry with a 3-byte fragment
the resolution reaches the slicing panic. -/
theorem commit_slice_precondition :
    (∀ f : Str, utf8Len f < COMMIT_LEN → sliceToByte f COMMIT_LEN = none) ∧
    (∀ f : Str, (∀ c ∈ f, c.toNat < 128) → COMMIT_LEN ≤ f.length →
      sliceToByte f COMMIT_LEN = some (f.take COMMIT_LEN)) ∧
    get_git_package_sources gitPkgFooShort "repo/Cargo.toml".toList fooFS 9 =
      .error .sliceOutOfBounds := by
  refine ⟨?_, ?_, ?_⟩
  · intro f h
    exact sliceToByte_none_of_short f COMMIT_LEN h
  · intro f hascii hlen
    exact sliceToByte_ascii f COMMIT_LEN hascii hlen
  · rfl

/-- Witness for C10 at concrete fragments. -/
theorem commit_slice_precondition_witness :
    sliceToByte "ab".toList COMMIT_LEN = none ∧
    sliceToByte "abcdef0123".toList COMMIT_LEN =
      some ("abcdef0123".toList.take COMMIT_LEN) :=
  ⟨commit_slice_precondition.1 "ab".toList (by decide),
   commit_slice_precondition.2.1 "abcdef0123".toList (by decide) (by decide)⟩

/-- Claim C1 (amended): a git-sourced lock entry that resolves successfully
emits exactly FOUR descriptors, in this order: a GitCheckout descriptor,
the ShellCommand copy, the Inline normalized manifest (written as
`Cargo.toml`), and the Inline fixed-content empty checksum marker; and it
contributes one config fragment keyed by the canonical repository URL. -/
theorem git_entry_descriptor_shape
    (pkg : Package) (manifest : Str) (fs : FS) (fuel : Nat)
    (l : List Source) (c : Cfg)
    (h : get_git_package_sources pkg manifest fs fuel = .ok (l, c)) :
    ∃ g sh mf tv,
      l = [Source.git g, Source.shell sh, Source.inline mf,
           Source.inline ⟨emptyChecksumJson,
             CARGO_CRATES ++ "/".toList ++ pkg.name,
             ".cargo-checksum.json".toList⟩] ∧
      mf.dest = CARGO_CRATES ++ "/".toList ++ pkg.name ∧
      mf.dest_filename = "Cargo.toml".toList ∧
      c = [(g.url, tv)] := by
  simp only [get_git_package_sources] at h
  split at h
  · exact Except.noConfusion h
  split at h
  · exact Except.noConfusion h
  split at h
  · exact Except.noConfusion h
  split at h
  · exact Except.noConfusion h
  split at h
  · exact Except.noConfusion h
  split at h
  · exact Except.noConfusion h
  split at h
  · exact Except.noConfusion h
  split at h
  · exact Except.noConfusion h
  split at h
  · exact Except.noConfusion h
  split at h
  · exact Except.noConfusion h
  rw [Except.ok.injEq] at h
  injection h with hl hc
  subst hl
  subst hc
  exact ⟨_, _, _, _, rfl, rfl, rfl, rfl⟩

/-- Witness for C1 at the concrete single-package git checkout. -/
theorem git_entry_descriptor_shape_witness :
    ∃ g sh mf tv,
      ((get_git_package_sources gitPkgFoo "repo/Cargo.toml".toList fooFS 9).toOption.getD
          ([], [])).1 =
        [Source.git g, Source.shell sh, Source.inline mf,
         Source.inline ⟨emptyChecksumJson,
           CARGO_CRATES ++ "/".toList ++ gitPkgFoo.name,
           ".cargo-checksum.json".toList⟩] ∧
      mf.dest = CARGO_CRATES ++ "/".toList ++ gitPkgFoo.name ∧
      mf.dest_filename = "Cargo.toml".toList ∧
      ((get_git_package_sources gitPkgFoo "repo/Cargo.toml".toList fooFS 9).toOption.getD
          ([], [])).2 = [(g.url, tv)] :=
  git_entry_descriptor_shape gitPkgFoo "repo/Cargo.toml".toList fooFS 9 _ _ rfl

/-- Claim C1 counterexample: on a concrete git entry that resolves successfully
the resolver emits FOUR descriptors and the first one is a GitCheckout
descriptor — not three descriptors starting with the ShellCommand copy. -/
theorem git_entry_emits_git_descriptor_cex :
    (get_git_package_sources gitPkgFoo "repo/Cargo.toml".toList fooFS 9).toOption.map
      (fun pr => (pr.1.length, headIsGit pr.1)) = some (4, true) := rfl

/-- Claim C3 (amended): the canonicalizer used by the source resolver
(`parse_url`) applies no GitHub host-specific rule: the VCS-marker
spelling equals the plain spelling only with the path case preserved.
The GitHub rule survives only in the older `canonical_url` copy in
src/main.rs, where the claimed lower-cased equality does hold. -/
theorem github_rule_only_in_old_canonicalizer :
    parse_url "git+https://github.com/Owner/Repo.git".toList =
      parse_url "https://github.com/Owner/Repo".toList ∧
    canonical_url "git+https://github.com/Owner/Repo.git".toList =
      canonical_url "https://github.com/owner/repo".toList := by
  exact ⟨rfl, rfl⟩

/-- Claim C3 counterexample: under the resolver's canonicalizer the two
spellings of the claim do NOT canonicalize equally (the path case
differs). -/
theorem github_rule_absent_cex :
    (parse_url "git+https://github.com/Owner/Repo.git".toList).toOption.map Prod.fst ≠
      (parse_url "https://github.com/owner/repo".toList).toOption.map Prod.fst := by
  decide

/-! C6 supporting lemmas -/

theorem insertAssoc_idem {α : Type} (m : List (Str × α)) (k : Str) (v : α) :
    insertAssoc (insertAssoc m k v) k v = insertAssoc m k v := by
  by_cases hc : containsKey m k
  · have hrepl : insertAssoc m k v = m.map (fun kv => if kv.1 = k then (k, v) else kv) := by
      simp [insertAssoc, hc]
    have hc2 : containsKey (insertAssoc m k v) k := by
      rw [hrepl]
      simp only [containsKey, List.any_map, List.any_eq_true] at hc ⊢
      obtain ⟨kv, hkv, hk⟩ := hc
      refine ⟨kv, hkv, ?_⟩
      simp only [Function.comp]
      simp only [decide_eq_true_eq] at hk
      simp [hk]
    rw [hrepl] at hc2 ⊢
    simp only [insertAssoc, hc2, if_true]
    rw [List.map_map]
    apply List.map_congr_left
    intro kv _
    by_cases hk : kv.1 = k <;> simp [Function.comp, hk]
  · have happ : insertAssoc m k v = m ++ [(k, v)] := by
      simp [insertAssoc, hc]
    have hc2 : containsKey (m ++ [(k, v)]) k := by
      simp [containsKey]
    rw [happ]
    simp only [insertAssoc, hc2, if_true]
    rw [List.map_append]
    have hm : m.map (fun kv => if kv.1 = k then (k, v) else kv) = m := by
      conv_rhs => rw [← List.map_id m]
      apply List.map_congr_left
      intro kv hkv
      show (if kv.1 = k then (k, v) else kv) = kv
      have : kv.1 ≠ k := by
        intro heq
        apply hc
        simp only [containsKey, List.any_eq_true]
        exact ⟨kv, hkv, by simp [heq]⟩
      simp [this]
    simp [hm]

theorem collect_registry (ps : List Package) (manifest : Str) (fs : FS)
    (fuel : Nat) (acc : List Source) (cfg : Cfg)
    (hreg : ∀ p ∈ ps, IsRegistryEntry p) :
    ∃ srcs, collectSources ps manifest fs fuel acc cfg =
        .ok (acc ++ srcs,
          if ps.isEmpty then cfg else insertAssoc cfg cratesIoKey rwVal) ∧
      srcs.length = 2 * ps.length := by
  induction ps generalizing acc cfg with
  | nil => exact ⟨[], by simp [collectSources], rfl⟩
  | cons p rest ih =>
    obtain ⟨⟨s, hs, hgit⟩, ⟨h, hchk⟩⟩ := hreg p (List.mem_cons_self p rest)
    obtain ⟨n, v, src, chk, deps⟩ := p
    simp only at hs hchk
    subst hs
    subst hchk
    have hstep := registry_sources_eq n v h s deps manifest fs fuel hgit
    obtain ⟨srcs', hrun, hlen⟩ := ih (acc ++
      [Source.archive ⟨"tar-gzip".toList,
          CRATES_IO ++ "/".toList ++ n ++ "/".toList ++ n ++ "-".toList ++
            v ++ ".crate".toList, h,
          CARGO_CRATES ++ "/".toList ++ n ++ "-".toList ++ v⟩,
        Source.inline ⟨checksumJson h,
          CARGO_CRATES ++ "/".toList ++ n ++ "-".toList ++ v,
          ".cargo-checksum.json".toList⟩])
      (insertAssoc cfg cratesIoKey rwVal)
      (fun q hq => hreg q (List.mem_cons_of_mem _ hq))
    refine ⟨[Source.archive ⟨"tar-gzip".toList,
        CRATES_IO ++ "/".toList ++ n ++ "/".toList ++ n ++ "-".toList ++
          v ++ ".crate".toList, h,
        CARGO_CRATES ++ "/".toList ++ n ++ "-".toList ++ v⟩,
      Source.inline ⟨checksumJson h,
        CARGO_CRATES ++ "/".toList ++ n ++ "-".toList ++ v,
        ".cargo-checksum.json".toList⟩] ++ srcs', ?_, ?_⟩
    · simp only [collectSources, hstep, List.foldl_cons, List.foldl_nil]
      rw [hrun]
      cases rest with
      | nil =>
        simp [List.append_assoc]
      | cons r rs =>
        simp [List.append_assoc, insertAssoc_idem]
    · simp only [List.length_append, List.length_cons, hlen]
      simp [Nat.mul_succ, Nat.add_comm]

/-- Claim C6: for a lock file whose entries are all registry-sourced with
checksums (and hence zero git entries), a full run emits exactly `2N`
resolver descriptors, and the merged vendor configuration carries exactly
one global crates-io redirect entry (shared by all entries), next to the
vendored-sources directory declaration — not one per entry. -/
theorem full_run_registry_descriptors (lock : LockFile) (manifest : Str)
    (fs : FS) (fuel : Nat) (hne : lock.package ≠ [])
    (hreg : ∀ p ∈ lock.package, IsRegistryEntry p) :
    ∃ srcs, mainRun lock manifest fs fuel =
        .ok (srcs, initCfg ++ [(cratesIoKey, rwVal)]) ∧
      srcs.length = 2 * lock.package.length := by
  obtain ⟨srcs, hrun, hlen⟩ :=
    collect_registry lock.package manifest fs fuel [] initCfg hreg
  refine ⟨srcs, ?_, hlen⟩
  rw [mainRun, hrun]
  cases hpk : lock.package with
  | nil => exact absurd hpk hne
  | cons p rest =>
    simp [hpk]
    rfl

/-- Witness for C6: two registry entries give four descriptors and a
single crates-io redirect. -/
theorem full_run_registry_descriptors_witness :
    ∃ srcs,
      mainRun ⟨3,
        [⟨"serde".toList, "1.0.0".toList,
           some "registry+https://github.com/rust-lang/crates.io-index".toList,
           some "abcd1234".toList, none⟩,
         ⟨"libc".toList, "0.2.0".toList,
           some "registry+https://github.com/rust-lang/crates.io-index".toList,
           some "ef567890".toList, none⟩]⟩ [] [] 0 =
        .ok (srcs, initCfg ++ [(cratesIoKey, rwVal)]) ∧
      srcs.length = 2 * ([⟨"serde".toList, "1.0.0".toList,
           some "registry+https://github.com/rust-lang/crates.io-index".toList,
           some "abcd1234".toList, none⟩,
         ⟨"libc".toList, "0.2.0".toList,
           some "registry+https://github.com/rust-lang/crates.io-index".toList,
           some "ef567890".toList, none⟩] : List Package).length :=
  full_run_registry_descriptors _ [] [] 0 (by simp)
    (by
      intro p hp
      simp only [List.mem_cons, List.not_mem_nil, or_false] at hp
      rcases hp with rfl | rfl
      · exact ⟨⟨_, rfl, by decide⟩, ⟨_, rfl⟩⟩
      · exact ⟨⟨_, rfl, by decide⟩, ⟨_, rfl⟩⟩)

/-! C7: workspace normalization -/

theorem foldl_replace_no_marker (wsec : List (Str × Toml)) (ktr : List Str) :
    ∀ sm : List (Str × Toml),
      (∀ kv : Str × Toml, kv ∈ sm → isMarkerValue kv.2 = true → kv.1 ∈ ktr) →
      (∀ key ∈ ktr, ∃ wv, lookupAssoc wsec key = some wv ∧
        isMarkerValue wv = false) →
      ∀ kv : Str × Toml,
        kv ∈ ktr.foldl (fun sm key =>
          match lookupAssoc wsec key with
          | some workspace_value =>
            sm.map (fun kv => if kv.1 = key then (key, workspace_value) else kv)
          | none => sm) sm →
        isMarkerValue kv.2 = false := by
  induction ktr with
  | nil =>
    intro sm hmark _ kv hkv
    simp only [List.foldl_nil] at hkv
    cases hmv : isMarkerValue kv.2 with
    | false => rfl
    | true => exact absurd (hmark kv hkv hmv) (List.not_mem_nil _)
  | cons key0 tail ih =>
    intro sm hmark hgood kv hkv
    obtain ⟨wv0, hwv0, hwv0nm⟩ := hgood key0 (List.mem_cons_self key0 tail)
    simp only [List.foldl_cons, hwv0] at hkv
    refine ih _ ?_ (fun key hk => hgood key (List.mem_cons_of_mem _ hk)) kv hkv
    intro kv' hkv' hmarked'
    obtain ⟨kv0, hkv0mem, hkv0eq⟩ := List.mem_map.mp hkv'
    by_cases hk : kv0.1 = key0
    · rw [if_pos hk] at hkv0eq
      subst hkv0eq
      exact absurd hmarked' (by simp [hwv0nm])
    · rw [if_neg hk] at hkv0eq
      subst hkv0eq
      have hmem := hmark kv0 hkv0mem hmarked'
      rcases List.mem_cons.mp hmem with heq | htail
      · exact absurd heq hk
      · exact htail

/-- Claim C7 (amended): normalization replaces an inheritance marker only when
the attached workspace has a same-named section containing the key;
whenever the workspace provides a (non-marker) value for every marked key
of every section, the normalized manifest contains no remaining marker.
Markers without a workspace counterpart remain (see the counterexample). -/
theorem normalized_no_marker_of_workspace_complete
    (gp : GitPackage) (ws : Toml) (sections : List (Str × Toml)) (t : Toml)
    (hws : gp.workspace = some ws)
    (hpkg : gp.package = Toml.table sections)
    (hnorm : gp.normalized = some t)
    (hcomplete : ∀ sk sm, (sk, Toml.table sm) ∈ sections →
      ∀ kv : Str × Toml, kv ∈ sm → isMarkerValue kv.2 = true →
        ∃ wsec wv, (ws.get? sk).bind Toml.asTable = some wsec ∧
          lookupAssoc wsec kv.1 = some wv ∧ isMarkerValue wv = false) :
    hasWorkspaceMarker t = false := by
  rw [GitPackage.normalized, hws, hpkg] at hnorm
  rw [Option.some.injEq] at hnorm
  subst hnorm
  rw [hasWorkspaceMarker]
  rw [List.any_eq_false]
  intro sk' hsk'
  simp only [Bool.not_eq_true]
  obtain ⟨sksec, hskmem, hskeq⟩ := List.mem_map.mp hsk'
  obtain ⟨sk, sec⟩ := sksec
  subst hskeq
  cases sec with
  | table sm =>
    rcases hwsec : (ws.get? sk).bind Toml.asTable with _ | wsec
    · simp only [hwsec]
      rw [List.any_eq_false]
      intro kv hkv
      simp only [Bool.not_eq_true]
      cases hmv : isMarkerValue kv.2 with
      | false => rfl
      | true =>
        obtain ⟨wsec', wv, hwsec', -, -⟩ := hcomplete sk sm hskmem kv hkv hmv
        rw [hwsec] at hwsec'
        exact Option.noConfusion hwsec'
    · simp only [hwsec]
      rw [List.any_eq_false]
      intro kv hkv
      simp only [Bool.not_eq_true]
      have hktr : ∀ kv' : Str × Toml, kv' ∈ sm → isMarkerValue kv'.2 = true →
          kv'.1 ∈ sm.filterMap (fun kv =>
            match kv.2 with
            | Toml.table value_map =>
              if containsKey value_map workspaceKey then some kv.1 else none
            | _ => none) := by
        intro kv' hkv' hmarked'
        rw [List.mem_filterMap]
        refine ⟨kv', hkv', ?_⟩
        obtain ⟨k1, v1⟩ := kv'
        cases v1 with
        | table vm =>
          have hcont : containsKey vm workspaceKey = true := hmarked'
          show (if containsKey vm workspaceKey then some k1 else none) = some k1
          rw [hcont]
          exact if_pos rfl
        | str s => exact Bool.noConfusion hmarked'
        | boolean b => exact Bool.noConfusion hmarked'
        | arr xs => exact Bool.noConfusion hmarked'
      have hgood : ∀ key ∈ sm.filterMap (fun kv =>
          match kv.2 with
          | Toml.table value_map =>
            if containsKey value_map workspaceKey then some kv.1 else none
          | _ => none), ∃ wv, lookupAssoc wsec key = some wv ∧
            isMarkerValue wv = false := by
        intro key hkey
        rw [List.mem_filterMap] at hkey
        obtain ⟨⟨k1, v1⟩, hkv'mem, hkv'eq⟩ := hkey
        cases v1 with
        | table vm =>
          replace hkv'eq :
              (if containsKey vm workspaceKey then some k1 else none) = some key :=
            hkv'eq
          rcases hcont : containsKey vm workspaceKey with _ | _
          · rw [hcont] at hkv'eq
            rw [if_neg (by simp)] at hkv'eq
            exact Option.noConfusion hkv'eq
          · rw [hcont] at hkv'eq
            rw [if_pos rfl] at hkv'eq
            obtain rfl : k1 = key := Option.some.inj hkv'eq
            obtain ⟨wsec', wv, hwsec', hlook, hnm⟩ :=
              hcomplete sk sm hskmem (k1, Toml.table vm) hkv'mem hcont
            rw [hwsec] at hwsec'
            have hww : wsec = wsec' := Option.some.inj hwsec'
            subst hww
            exact ⟨wv, hlook, hnm⟩
        | str s =>
          exact Option.noConfusion (show (none : Option Str) = some key from hkv'eq)
        | boolean b =>
          exact Option.noConfusion (show (none : Option Str) = some key from hkv'eq)
        | arr xs =>
          exact Option.noConfusion (show (none : Option Str) = some key from hkv'eq)
      cases hmv : isMarkerValue kv.2 with
      | false => rfl
      | true =>
        have := foldl_replace_no_marker wsec _ sm hktr hgood kv hkv
        rw [hmv] at this
        exact Bool.noConfusion this
  | str s => rfl
  | boolean b => rfl
  | arr xs => rfl

/-- Witness for C7: a manifest whose one marker has a workspace value. -/
theorem normalized_no_marker_witness :
    hasWorkspaceMarker ((c7Gp.normalized).getD (Toml.boolean false)) = false := by
  refine normalized_no_marker_of_workspace_complete c7Gp
    (Toml.table [(dependenciesKey,
      Toml.table [("foo".toList, Toml.str "1.0".toList)])])
    [(dependenciesKey,
      Toml.table [("foo".toList, Toml.table [(workspaceKey, Toml.boolean true)])])]
    _ rfl rfl rfl ?_
  intro sk sm hmem kv hkv hmarked
  rw [List.mem_singleton] at hmem
  rw [Prod.mk.injEq] at hmem
  obtain ⟨hsk, hsm⟩ := hmem
  rw [Toml.table.injEq] at hsm
  subst hsk
  subst hsm
  rw [List.mem_singleton] at hkv
  subst hkv
  exact ⟨[("foo".toList, Toml.str "1.0".toList)], Toml.str "1.0".toList,
    rfl, rfl, rfl⟩

/-- Claim C7 counterexample: a manifest attached to a workspace that lacks the
marked section keeps the `workspace` inheritance marker after
normalization. -/
theorem normalized_marker_remains_cex :
    (((GitPackage.mk []
        (Toml.table [(dependenciesKey,
          Toml.table [("foo".toList,
            Toml.table [(workspaceKey, Toml.boolean true)])])])
        (some (Toml.table []))).normalized).map hasWorkspaceMarker) =
      some true := rfl

/-! C8: first-discovered-wins in the package map -/

/-- Claim C8 (amended): path-dependency recursion is first-discovered-wins — a
dependency whose resolved name is already in the map is skipped without
touching the map — and a workspace whose two members share a third
path-dependency (itself not a member) resolves the shared package exactly
once, keyed to the first discovering member, under either member order.
(Workspace-member and root-package insertion, by contrast, overwrite
unconditionally; see the counterexample.) -/
theorem dep_memoization :
    (∀ (recur : Toml → Str → Pkgs → Except Err Pkgs) (dep_key : Str)
        (dep : Toml) (toml_dir : Str) (ws : Option Toml) (packages : Pkgs)
        (fs : FS),
      containsKey packages (resolvedDepName dep_key dep) = true →
      processDep recur dep_key dep toml_dir ws packages fs = .ok packages) ∧
    ((get_cargo_toml_packages 9 (wsRoot ["m1".toList, "m2".toList])
        "ws".toList sharedFS).toOption.bind
      (fun pkgs => (lookupAssoc pkgs "c".toList).map GitPackage.path) =
        some "ws/m1/../c".toList) ∧
    ((get_cargo_toml_packages 9 (wsRoot ["m2".toList, "m1".toList])
        "ws".toList sharedFS).toOption.bind
      (fun pkgs => (lookupAssoc pkgs "c".toList).map GitPackage.path) =
        some "ws/m2/../c".toList) := by
  refine ⟨?_, rfl, rfl⟩
  intro recur dep_key dep toml_dir ws packages fs hmem
  rw [processDep]
  cases dep.get? pathKey with
  | none => rfl
  | some pathv =>
    simp only [hmem, if_true]

/-- Witness for C8's skip property at a concrete populated map. -/
theorem dep_memoization_witness :
    processDep (fun _ _ pk => .ok pk) "c".toList
      (Toml.table [(pathKey, Toml.str "../c".toList)]) "d".toList none
      [("c".toList, GitPackage.mk "x".toList cToml none)] [] =
      .ok [("c".toList, GitPackage.mk "x".toList cToml none)] :=
  dep_memoization.1 (fun _ _ pk => .ok pk) "c".toList
    (Toml.table [(pathKey, Toml.str "../c".toList)]) "d".toList none
    [("c".toList, GitPackage.mk "x".toList cToml none)] [] (by decide)

/-- Claim C8 counterexample: after the name `c` is first inserted via m1's
path-dependency recursion (path `ws/m1/../c`), the later member expansion
of `c` OVERWRITES the entry (path `ws/c`) — the later discovery does not
leave the existing entry unchanged. -/
theorem member_insert_overwrites_cex :
    ((processMembers 9 ["m1".toList] "ws".toList
        (wsTableMembers ["m1".toList, "c".toList]) [] overwriteFS).toOption.bind
      (fun pkgs => (lookupAssoc pkgs "c".toList).map GitPackage.path) =
        some "ws/m1/../c".toList) ∧
    ((get_cargo_toml_packages 9 (wsRoot ["m1".toList, "c".toList])
        "ws".toList overwriteFS).toOption.bind
      (fun pkgs => (lookupAssoc pkgs "c".toList).map GitPackage.path) =
        some "ws/c".toList) ∧
    ("ws/m1/../c".toList : Str) ≠ "ws/c".toList :=
  ⟨rfl, rfl, by decide⟩

/-! C2 supporting lemmas: string primitives -/

theorem strStartsWith_append_self (p t : Str) :
    strStartsWith (p ++ t) p = true := by
  induction p with
  | nil => cases t <;> rfl
  | cons c cs ih => simp [strStartsWith, ih]

theorem strEndsWith_nil_of_ne (pat : Str) (h : pat ≠ []) :
    strEndsWith [] pat = false := by
  rw [strEndsWith]
  cases hrev : pat.reverse with
  | nil => exact absurd (List.reverse_eq_nil_iff.mp hrev) h
  | cons x xs => rfl

theorem strStartsWith_nil (s : Str) : strStartsWith s [] = true := by
  cases s <;> rfl

theorem takeWhile_all {p : Char → Bool} (l : Str) (h : ∀ x ∈ l, p x = true) :
    l.takeWhile p = l := by
  induction l with
  | nil => rfl
  | cons c cs ih =>
    simp [List.takeWhile_cons, h c (List.mem_cons_self c cs),
      ih (fun x hx => h x (List.mem_cons_of_mem c hx))]

theorem takeWhile_append_all {p : Char → Bool} (xs ys : Str)
    (h : ∀ x ∈ xs, p x = true) :
    (xs ++ ys).takeWhile p = xs ++ ys.takeWhile p := by
  induction xs with
  | nil => rfl
  | cons c cs ih =>
    rw [List.cons_append, List.takeWhile_cons, h c (List.mem_cons_self c cs)]
    rw [ih (fun x hx => h x (List.mem_cons_of_mem c hx))]
    rfl

theorem dropWhile_append_all {p : Char → Bool} (xs ys : Str)
    (h : ∀ x ∈ xs, p x = true) :
    (xs ++ ys).dropWhile p = ys.dropWhile p := by
  induction xs with
  | nil => rfl
  | cons c cs ih =>
    rw [List.cons_append, List.dropWhile_cons, h c (List.mem_cons_self c cs)]
    simp only [if_true]
    exact ih (fun x hx => h x (List.mem_cons_of_mem c hx))

theorem dropWhile_head_false {p : Char → Bool} (l : Str) (x : Char) (xs : Str)
    (h : l.dropWhile p = x :: xs) : p x = false := by
  induction l with
  | nil => exact absurd h (by simp)
  | cons c cs ih =>
    rw [List.dropWhile_cons] at h
    by_cases hc : p c = true
    · rw [hc] at h
      simp only [if_true] at h
      exact ih h
    · rw [Bool.not_eq_true] at hc
      rw [hc] at h
      simp only [Bool.false_eq_true, if_false] at h
      obtain ⟨rfl, -⟩ := List.cons.inj h
      exact hc

theorem splitOnce_scheme (sch rest : Str) (h : ∀ c ∈ sch, c ≠ ':') :
    splitOnce (sch ++ schemeSep ++ rest) schemeSep = some (sch, rest) := by
  induction sch with
  | nil =>
    show splitOnce (schemeSep ++ rest) schemeSep = some ([], rest)
    have h1 : schemeSep ++ rest = ':' :: ('/' :: '/' :: rest) := rfl
    rw [h1, splitOnce]
    have h2 : strStartsWith (':' :: ('/' :: '/' :: rest)) schemeSep = true := by
      rw [← h1]
      exact strStartsWith_append_self schemeSep rest
    rw [h2]
    simp only [if_true]
    rfl
  | cons c cs ih =>
    have hc : c ≠ ':' := h c (List.mem_cons_self c cs)
    show splitOnce (c :: (cs ++ schemeSep ++ rest)) schemeSep = some (c :: cs, rest)
    rw [splitOnce]
    have hsw : strStartsWith (c :: (cs ++ schemeSep ++ rest)) schemeSep = false := by
      show (decide (c = ':') && _) = false
      rw [decide_eq_false hc]
      rfl
    rw [hsw]
    simp only [Bool.false_eq_true, if_false]
    rw [ih (fun x hx => h x (List.mem_cons_of_mem c hx))]
    rfl

theorem splitAtFirst_no_mem (s : Str) (c : Char) (h : ∀ d ∈ s, d ≠ c) :
    splitAtFirst s c = (s, none) := by
  have htw : s.takeWhile (fun d => !decide (d = c)) = s :=
    takeWhile_all s (fun x hx => by simp [h x hx])
  simp [splitAtFirst, htw]

theorem mem_of_mem_takeWhile {p : Char → Bool} {l : Str} {x : Char}
    (h : x ∈ l.takeWhile p) : x ∈ l :=
  (List.takeWhile_sublist p).mem h

theorem strEndsWith_single (s : Str) (c : Char) :
    strEndsWith s [c] = strStartsWith s.reverse [c] := rfl

theorem trimEndMatchesChar_decomp (s : Str) (c : Char) :
    s = trimEndMatchesChar s c ++ (s.reverse.takeWhile (fun d => d = c)).reverse ∧
    ∀ d ∈ (s.reverse.takeWhile (fun d => d = c)), d = c := by
  constructor
  · rw [trimEndMatchesChar]
    conv_lhs => rw [← List.reverse_reverse s]
    conv_lhs => rw [← List.takeWhile_append_dropWhile
      (p := fun d => decide (d = c)) (l := s.reverse)]
    rw [List.reverse_append]
  · intro d hd
    exact of_decide_eq_true
      (List.mem_takeWhile_imp (p := fun d => decide (d = c)) hd)

theorem trimEndMatchesChar_prefixOf (s : Str) (c : Char) :
    trimEndMatchesChar s c <+: s :=
  ⟨(s.reverse.takeWhile (fun d => d = c)).reverse,
    ((trimEndMatchesChar_decomp s c).1).symm⟩

theorem trimEndMatchesChar_not_endsWith (s : Str) (c : Char) :
    strEndsWith (trimEndMatchesChar s c) [c] = false := by
  rw [strEndsWith_single, trimEndMatchesChar, List.reverse_reverse]
  cases hdw : s.reverse.dropWhile (fun d => d = c) with
  | nil => rfl
  | cons x xs =>
    have hx : decide (x = c) = false := dropWhile_head_false s.reverse x xs hdw
    show (decide (x = c) && _) = false
    rw [hx]
    rfl

theorem trimEndMatchesChar_eq_of_not_endsWith (s : Str) (c : Char)
    (h : strEndsWith s [c] = false) : trimEndMatchesChar s c = s := by
  rw [trimEndMatchesChar]
  cases hrev : s.reverse with
  | nil =>
    have : s = [] := by simpa using congrArg List.reverse hrev
    subst this
    rfl
  | cons x xs =>
    rw [strEndsWith_single, hrev] at h
    have hx : decide (x = c) = false := by
      cases hd : decide (x = c) with
      | false => rfl
      | true =>
        rw [show strStartsWith (x :: xs) [c] =
              (decide (x = c) && strStartsWith xs []) from rfl,
          hd, strStartsWith_nil] at h
        exact Bool.noConfusion h
    rw [List.dropWhile_cons, hx]
    simp only [Bool.false_eq_true, if_false]
    rw [← hrev, List.reverse_reverse]

theorem trimEndAux_prefixOf (fuel : Nat) (s pat : Str) :
    trimEndAux fuel s pat <+: s := by
  induction fuel generalizing s with
  | zero => exact List.prefix_refl s
  | succ f ih =>
    rw [trimEndAux]
    split
    · exact (ih _).trans ( List.take_prefix _ s)
    · exact List.prefix_refl s

theorem trimEndAux_eq_of_not_endsWith (fuel : Nat) (s pat : Str)
    (h : strEndsWith s pat = false) : trimEndAux fuel s pat = s := by
  cases fuel with
  | zero => rfl
  | succ f =>
    rw [trimEndAux, if_neg]
    intro hcond
    rw [h] at hcond
    exact Bool.noConfusion hcond.2

theorem trimEndAux_not_endsWith (pat : Str) (hpat : pat ≠ []) :
    ∀ (fuel : Nat) (s : Str), s.length ≤ fuel →
      strEndsWith (trimEndAux fuel s pat) pat = false := by
  intro fuel
  induction fuel with
  | zero =>
    intro s hs
    have : s = [] := List.length_eq_zero.mp (Nat.le_zero.mp hs)
    subst this
    exact strEndsWith_nil_of_ne pat hpat
  | succ f ih =>
    intro s hs
    rw [trimEndAux]
    by_cases hc : pat ≠ [] ∧ strEndsWith s pat = true
    · rw [if_pos hc]
      apply ih
      have hple := strEndsWith_length_le hc.2
      have hppos : 0 < pat.length := List.length_pos.mpr hpat
      simp only [List.length_take]
      omega
    · rw [if_neg hc]
      cases he : strEndsWith s pat with
      | false => rfl
      | true => exact absurd ⟨hpat, he⟩ hc

theorem trimEndMatchesStr_prefixOf (s pat : Str) : trimEndMatchesStr s pat <+: s :=
  trimEndAux_prefixOf s.length s pat

theorem trimEndMatchesStr_not_endsWith (s pat : Str) (hpat : pat ≠ []) :
    strEndsWith (trimEndMatchesStr s pat) pat = false :=
  trimEndAux_not_endsWith pat hpat s.length s (Nat.le_refl _)

theorem trimEndMatchesStr_eq_of_not_endsWith (s pat : Str)
    (h : strEndsWith s pat = false) : trimEndMatchesStr s pat = s :=
  trimEndAux_eq_of_not_endsWith s.length s pat h

theorem dropWhile_all {p : Char → Bool} (l : Str) (h : ∀ x ∈ l, p x = true) :
    l.dropWhile p = [] := by
  have := dropWhile_append_all l [] h
  simpa using this

theorem splitAtFirst_fst (s : Str) (c : Char) :
    (splitAtFirst s c).1 = s.takeWhile (fun d => decide (d ≠ c)) := by
  rw [splitAtFirst]
  split
  · rename_i hlen
    exact (( List.takeWhile_prefix _).eq_of_length hlen).symm
  · rfl

theorem validScheme_no_colon (sch : Str) (h : validScheme sch = true) :
    ∀ c ∈ sch, c ≠ ':' := by
  cases sch with
  | nil => exact fun c hc => absurd hc (List.not_mem_nil c)
  | cons c0 rest =>
    rw [validScheme] at h
    have hp := of_decide_eq_true h
    intro c hc
    rcases List.mem_cons.mp hc with rfl | hmem
    · intro heq
      rw [heq] at hp
      exact absurd hp.1.1 (by decide)
    · have hall := List.all_eq_true.mp hp.2 c hmem
      have hd := of_decide_eq_true hall
      intro heq
      rw [heq] at hd
      rcases hd with ⟨ha, hb⟩ | hrest
      · exact absurd ha (by decide)
      · rcases hrest with ⟨ha, hb⟩ | hrest
        · exact absurd hb (by decide)
        · rcases hrest with ha | ha | ha <;> exact absurd ha (by decide)

theorem Url.parse_ok_inv (t : Str) (u0 : Url) (h : Url.parse t = .ok u0) :
    validScheme u0.scheme = true ∧ u0.host ≠ [] ∧
      (∀ c ∈ u0.host, notSep c = true) ∧
      u0.path ≠ [] ∧ u0.path.head? = some '/' ∧
      (∀ c ∈ u0.path, c ≠ '?' ∧ c ≠ '#') := by
  rw [Url.parse] at h
  split at h
  · exact Except.noConfusion h
  rename_i sch rest heq
  split at h
  case isFalse => exact Except.noConfusion h
  case isTrue hvs =>
    split at h
    case isTrue => exact Except.noConfusion h
    case isFalse hhost =>
      split at h
      rename_i beforeFrag frag hsp1
      split at h
      rename_i p query hsp2
      have hu0 : u0 = ⟨sch, rest.takeWhile notSep,
          if p = [] then ['/'] else p, query, frag⟩ := (Except.ok.inj h).symm
      subst hu0
      have hpfst : p = beforeFrag.takeWhile (fun d => decide (d ≠ '?')) := by
        have hx := splitAtFirst_fst beforeFrag '?'
        rw [hsp2] at hx
        simpa using hx
      have hbf : beforeFrag =
          (rest.dropWhile notSep).takeWhile (fun d => decide (d ≠ '#')) := by
        have hx := splitAtFirst_fst (rest.dropWhile notSep) '#'
        rw [hsp1] at hx
        simpa using hx
      refine ⟨hvs, hhost, ?_, ?_, ?_, ?_⟩
      · exact fun c hc => List.mem_takeWhile_imp hc
      · show (if p = [] then ['/'] else p) ≠ []
        split
        · simp
        · assumption
      · show (if p = [] then ['/'] else p).head? = some '/'
        by_cases hp : p = []
        · rw [if_pos hp]
          rfl
        · rw [if_neg hp]
          cases hafter : rest.dropWhile notSep with
          | nil =>
            rw [hafter] at hbf
            rw [hbf] at hpfst
            exact absurd hpfst hp
          | cons a as =>
            have hna : notSep a = false := dropWhile_head_false rest a as hafter
            have hdisj : a = '/' ∨ a = '?' ∨ a = '#' := by
              rw [notSep] at hna
              exact not_not.mp (of_decide_eq_false hna)
            rcases hdisj with rfl | rfl | rfl
            · rw [hafter] at hbf
              rw [List.takeWhile_cons] at hbf
              rw [show (decide (('/' : Char) ≠ '#')) = true from by decide] at hbf
              simp only [if_true] at hbf
              rw [hbf] at hpfst
              rw [List.takeWhile_cons] at hpfst
              rw [show (decide (('/' : Char) ≠ '?')) = true from by decide] at hpfst
              simp only [if_true] at hpfst
              rw [hpfst]
              rfl
            · rw [hafter] at hbf
              rw [List.takeWhile_cons] at hbf
              rw [show (decide (('?' : Char) ≠ '#')) = true from by decide] at hbf
              simp only [if_true] at hbf
              rw [hbf] at hpfst
              rw [List.takeWhile_cons] at hpfst
              rw [show (decide (('?' : Char) ≠ '?')) = false from by decide] at hpfst
              simp only [Bool.false_eq_true, if_false] at hpfst
              exact absurd hpfst hp
            · rw [hafter] at hbf
              rw [List.takeWhile_cons] at hbf
              rw [show (decide (('#' : Char) ≠ '#')) = false from by decide] at hbf
              simp only [Bool.false_eq_true, if_false] at hbf
              rw [hbf] at hpfst
              exact absurd hpfst hp
      · intro c hc
        show c ≠ '?' ∧ c ≠ '#'
        by_cases hp : p = []
        · rw [if_pos hp] at hc
          rw [List.mem_singleton] at hc
          subst hc
          exact ⟨by decide, by decide⟩
        · rw [if_neg hp] at hc
          rw [hpfst] at hc
          have hq : c ≠ '?' := by
            have hx := List.mem_takeWhile_imp
              (p := fun d => decide (d ≠ '?')) hc
            simpa using hx
          have hcbf : c ∈ beforeFrag := mem_of_mem_takeWhile hc
          rw [hbf] at hcbf
          have hhash : c ≠ '#' := by
            have hx := List.mem_takeWhile_imp
              (p := fun d => decide (d ≠ '#')) hcbf
            simpa using hx
          exact ⟨hq, hhash⟩

theorem Url.parse_canonical (sch host upath : Str)
    (hvs : validScheme sch = true)
    (hhost : host ≠ []) (hhostc : ∀ c ∈ host, notSep c = true)
    (hpath : upath = [] ∨ upath.head? = some '/')
    (hpc : ∀ c ∈ upath, c ≠ '?' ∧ c ≠ '#') :
    Url.parse (Url.toStr ⟨sch, host, upath, none, none⟩) =
      .ok ⟨sch, host, if upath = [] then ['/'] else upath, none, none⟩ := by
  have htostr : Url.toStr ⟨sch, host, upath, none, none⟩ =
      sch ++ schemeSep ++ (host ++ upath) := by
    rw [Url.toStr]
    simp [List.append_assoc]
  have htw : (host ++ upath).takeWhile notSep = host := by
    rcases hpath with rfl | hhead
    · rw [List.append_nil]
      exact takeWhile_all host hhostc
    · cases upath with
      | nil => rw [List.append_nil]; exact takeWhile_all host hhostc
      | cons a up' =>
        have ha : a = '/' := by
          rw [List.head?_cons] at hhead
          exact Option.some.inj hhead
        subst ha
        rw [takeWhile_append_all host _ hhostc]
        rw [List.takeWhile_cons]
        rw [show notSep '/' = false from by decide]
        simp
  have hdw : (host ++ upath).dropWhile notSep = upath := by
    rcases hpath with rfl | hhead
    · rw [List.append_nil]
      exact dropWhile_all host hhostc
    · cases upath with
      | nil => rw [List.append_nil]; exact dropWhile_all host hhostc
      | cons a up' =>
        have ha : a = '/' := by
          rw [List.head?_cons] at hhead
          exact Option.some.inj hhead
        subst ha
        rw [dropWhile_append_all host _ hhostc]
        rw [List.dropWhile_cons]
        rw [show notSep '/' = false from by decide]
        simp
  have hs1 : splitAtFirst upath '#' = (upath, none) :=
    splitAtFirst_no_mem upath '#' (fun d hd => (hpc d hd).2)
  have hs2 : splitAtFirst upath '?' = (upath, none) :=
    splitAtFirst_no_mem upath '?' (fun d hd => (hpc d hd).1)
  rw [htostr, Url.parse]
  rw [splitOnce_scheme sch (host ++ upath) (validScheme_no_colon sch hvs)]
  simp only [hvs, if_true, htw, hdw, hs1, hs2]
  rw [if_neg hhost]

/-- Claim C2 (amended): canonicalization is idempotent for every raw URL whose
canonical path does not end with a trailing slash (exposed by stripping a
`.git` suffix) and whose canonical string does not contain the VCS marker
`git+https://` as a substring: re-canonicalizing the canonical URL string
returns the same canonical URL (with the default config entries; any
`rev`/`tag`/`branch` capture of the original query is not reproduced).
In general idempotence fails — see the counterexample. -/
theorem parse_url_idempotent (s : Str) (u : Url) (m : List (Str × Str))
    (h : parse_url s = .ok (u, m))
    (h1 : strEndsWith u.path ['/'] = false)
    (h2 : replaceAll (Url.toStr u) gitHttpsMarker httpsMarker = Url.toStr u) :
    parse_url (Url.toStr u) =
      .ok (u, [("git".toList, Url.toStr u),
               ("replace-with".toList, VENDORED_SOURCES)]) := by
  simp only [parse_url] at h
  split at h
  · exact Except.noConfusion h
  rename_i u0 heq
  rw [Except.ok.injEq, Prod.mk.injEq] at h
  obtain ⟨hu, hm⟩ := h
  subst hu
  obtain ⟨hvs, hh, hhc, hpne, hphead, hpc⟩ := Url.parse_ok_inv _ u0 heq
  have hpre : (trimEndMatchesStr (trimEndMatchesChar u0.path '/') dotGit) <+: u0.path :=
    (trimEndMatchesStr_prefixOf _ _).trans (trimEndMatchesChar_prefixOf _ _)
  have hupc : ∀ c ∈ trimEndMatchesStr (trimEndMatchesChar u0.path '/') dotGit,
      c ≠ '?' ∧ c ≠ '#' :=
    fun c hc => hpc c (hpre.sublist.subset hc)
  have hhead2 : trimEndMatchesStr (trimEndMatchesChar u0.path '/') dotGit = [] ∨
      (trimEndMatchesStr (trimEndMatchesChar u0.path '/') dotGit).head? =
        some '/' := by
    cases hupn : trimEndMatchesStr (trimEndMatchesChar u0.path '/') dotGit with
    | nil => exact Or.inl rfl
    | cons a up' =>
      right
      obtain ⟨tl, htl⟩ := hpre
      rw [hupn] at htl
      rw [← htl] at hphead
      rw [List.cons_append, List.head?_cons] at hphead
      rw [List.head?_cons]
      exact hphead
  have hround := Url.parse_canonical u0.scheme u0.host
    (trimEndMatchesStr (trimEndMatchesChar u0.path '/') dotGit)
    hvs hh hhc hhead2 hupc
  simp only [parse_url, h2, hround]
  by_cases hupn : trimEndMatchesStr (trimEndMatchesChar u0.path '/') dotGit = []
  · rw [if_pos hupn]
    rw [show trimEndMatchesChar ['/'] '/' = [] from rfl]
    rw [show trimEndMatchesStr [] dotGit = [] from rfl]
    rw [hupn]
    rfl
  · rw [if_neg hupn]
    have h1' : strEndsWith
        (trimEndMatchesStr (trimEndMatchesChar u0.path '/') dotGit) ['/'] =
          false := h1
    rw [trimEndMatchesChar_eq_of_not_endsWith _ _ h1']
    rw [trimEndMatchesStr_eq_of_not_endsWith _ _
      (trimEndMatchesStr_not_endsWith (trimEndMatchesChar u0.path '/') dotGit
        (by decide))]
    rfl

/-- Witness for C2 at a concrete URL meeting the side conditions. -/
theorem parse_url_idempotent_witness :
    parse_url (Url.toStr
      ⟨"https".toList, "example.com".toList, "/repo".toList, none, none⟩) =
      .ok (⟨"https".toList, "example.com".toList, "/repo".toList, none, none⟩,
        [("git".toList, Url.toStr
           ⟨"https".toList, "example.com".toList, "/repo".toList, none, none⟩),
         ("replace-with".toList, VENDORED_SOURCES)]) :=
  parse_url_idempotent "https://example.com/repo".toList
    ⟨"https".toList, "example.com".toList, "/repo".toList, none, none⟩
    [("git".toList, "https://example.com/repo".toList),
     ("replace-with".toList, VENDORED_SOURCES)]
    rfl (by decide) (by decide)

/-- Claim C2 counterexample: canonicalization is NOT idempotent — for the raw
URL `https://example.com/a/.git` both the current canonicalizer
(`parse_url`) and the older copy (`canonical_url`) produce the canonical
URL `https://example.com/a/`, which re-canonicalizes to
`https://example.com/a`. -/
theorem canonicalize_not_idempotent_cex :
    ((parse_url ((parse_url "https://example.com/a/.git".toList).toOption.map
          (fun pr => Url.toStr pr.1) |>.getD [])).toOption.map Prod.fst ≠
      (parse_url "https://example.com/a/.git".toList).toOption.map Prod.fst) ∧
    ((canonical_url ((canonical_url "https://example.com/a/.git".toList).toOption.map
          Url.toStr |>.getD [])).toOption ≠
      (canonical_url "https://example.com/a/.git".toList).toOption) := by
  exact ⟨by decide, by decide⟩

end CargoFlatpak
